import Mathlib

set_option maxRecDepth 8192

/-!
Verification development for the vocabulary-trainer bot (`src/bot.py`).

The relevant parts of `bot.py` are shallowly embedded as Lean definitions:

* `normalize_ar` / `normalize_en` (bot.py lines 104-119) — text canonicalization.
* `fuzzy_equal` (lines 121-129) — grading via `difflib.SequenceMatcher.ratio()`.
  The matcher is embedded faithfully for inputs shorter than 200 characters
  (below difflib's autojunk threshold, so no junk heuristic applies):
  `flm` is `find_longest_match` (maximal common block, earliest in the first
  argument and then in the second) and `matchingSize` is the total size of the
  matching blocks found by the recursive block decomposition; the ratio is
  `2*M/T` over the combined length, computed in `ℚ` in place of IEEE floats.
* `pick_item` (lines 138-143), `load_data` (lines 84-95) and the fallback
  dataset (lines 57-82).
* The per-user session dictionary, `default_session` (lines 155-161), the
  `cmd_start` session update (lines 176-179), `cmd_train` (lines 224-240),
  `cmd_voice` (lines 266-277) and `handle_answer` (lines 283-319), with the
  aiogram FSM state as `FsmState` and outgoing messages as abstract `Reply`
  values.  External speech synthesis (`tts_bytes`, gTTS) is out of scope and
  is modelled as an oracle `tts : String → Bool` telling whether synthesis of
  a given text succeeds.

Python strings are `String`/`List Char` (one `Char` per code point, as in
CPython); character classes from the regexes are expressed through `Char.toNat`
so that `[^؀-ۿ0-9\s]` etc. are literal transcriptions.  Python's
`str.lower` is modelled by `Char.toLower` (ASCII case mapping); the full
Unicode case mapping differs only on exotic cased letters (e.g. KELVIN SIGN),
none of which lies in any character class kept by the normalizers, so every
normalization result, and hence every property proved here, is unaffected.
Python's `\s`/`str.strip` whitespace classes also cover rare non-ASCII spaces;
those characters are instead replaced by `' '` by the character-class
substitution in the same pipelines and then collapsed, which yields the same
final strings, so modelling whitespace as the six ASCII space characters is
result-preserving.
-/

namespace EnglishBot

/-- Whitespace as matched by `\s` / `str.strip` (ASCII part; see header note). -/
def isPySpace (c : Char) : Bool :=
  c.toNat = 32 || c.toNat = 9 || c.toNat = 10 || c.toNat = 13 || c.toNat = 11 || c.toNat = 12

/-- Characters kept by `re.sub(r"[^a-z0-9\s\-]", " ", s)` in `normalize_en`. -/
def keepEn (c : Char) : Bool :=
  (97 ≤ c.toNat && c.toNat ≤ 122) || (48 ≤ c.toNat && c.toNat ≤ 57) || isPySpace c || c.toNat = 45

/-- Characters kept by `re.sub(r"[^؀-ۿ0-9\s]", " ", s)` in `normalize_ar`. -/
def keepAr (c : Char) : Bool :=
  (0x600 ≤ c.toNat && c.toNat ≤ 0x6FF) || (48 ≤ c.toNat && c.toNat ≤ 57) || isPySpace c

/-- Python `str.strip()` on a character list. -/
def pyStrip (l : List Char) : List Char :=
  ((l.dropWhile isPySpace).reverse.dropWhile isPySpace).reverse

/-- One character-class substitution step: every character not satisfying
`keep` is replaced by a single space (`re.sub("[^...]", " ", s)`). -/
def toSpaceUnless (keep : Char → Bool) (l : List Char) : List Char :=
  l.map (fun c => if keep c then c else ' ')

/-- One step of space collapapsing: prepend `c` unless both `c` and the head
of the already-collapsed tail are spaces. -/
def dedupCons (c : Char) : List Char → List Char
  | [] => [c]
  | d :: t => if c = ' ' && d = ' ' then d :: t else c :: d :: t

/-- Collapse adjacent spaces (helper for `re.sub(r"\s+", " ", s)`; used after
all whitespace has been mapped to `' '`). -/
def dedupSpace : List Char → List Char
  | [] => []
  | c :: rest => dedupCons c (dedupSpace rest)

/-- Python `re.sub(r"\s+", " ", s)`: each maximal whitespace run becomes one space. -/
def collapseWS (l : List Char) : List Char :=
  dedupSpace (l.map (fun c => if isPySpace c then ' ' else c))

/-- Alef variants to bare alef: `re.sub("[إأآا]", "ا", s)` (bot.py line 109). -/
def mapAlef (c : Char) : Char :=
  if c.toNat = 0x625 || c.toNat = 0x623 || c.toNat = 0x622 || c.toNat = 0x627 then 'ا' else c

/-- Alef maksura to yaa: `re.sub("ى", "ي", s)` (bot.py line 110). -/
def mapYaa (c : Char) : Char :=
  if c.toNat = 0x649 then 'ي' else c

/-- Taa marbuta to haa: `re.sub("ة", "ه", s)` (bot.py line 111). -/
def mapTaa (c : Char) : Char :=
  if c.toNat = 0x629 then 'ه' else c

/-- Body of `normalize_en` (bot.py lines 115-119) on character lists. -/
def normEnL (l : List Char) : List Char :=
  pyStrip (collapseWS (toSpaceUnless keepEn ((pyStrip l).map Char.toLower)))

/-- The `normalize_en` helper of bot.py. -/
def normalize_en (s : String) : String :=
  ⟨normEnL s.data⟩

/-- Body of `normalize_ar` (bot.py lines 104-113) on character lists. -/
def normArL (l : List Char) : List Char :=
  pyStrip (collapseWS ((((toSpaceUnless keepAr ((pyStrip l).map Char.toLower)).map
    mapAlef).map mapYaa).map mapTaa))

/-- The `normalize_ar` helper of bot.py. -/
def normalize_ar (s : String) : String :=
  ⟨normArL s.data⟩

/-- Length of the common run of equal characters at the heads of two lists. -/
def runLen : List Char → List Char → Nat
  | x :: xs, y :: ys => if x = y then runLen xs ys + 1 else 0
  | _, _ => 0

/-- The `find_longest_match` of `difflib.SequenceMatcher` (no junk, which is
the situation for the short strings graded here): the returned `(i, j, k)`
is a maximal matching block `a[i:i+k] = b[j:j+k]`, with ties broken by the
earliest start in `a` and then the earliest start in `b`, exactly the
documented difflib tie-break. -/
def flm (a b : List Char) : Nat × Nat × Nat :=
  ((List.range a.length).flatMap fun i => (List.range b.length).map fun j => (i, j)).foldl
    (fun best ij =>
      let k := runLen (a.drop ij.1) (b.drop ij.2)
      if best.2.2 < k then (ij.1, ij.2, k) else best)
    (0, 0, 0)

/-- Fuel-indexed total size of the matching blocks of `get_matching_blocks`:
take the longest match, then recurse on the pieces before and after it.  The
fuel only serves to make the recursion structural; each recursive call
strictly shrinks the first list (the block is nonempty and in range), so
`a.length + 1` units of fuel are never exhausted (`msAux_fuel_irrelevant`). -/
def msAux : Nat → List Char → List Char → Nat
  | 0, _, _ => 0
  | fuel + 1, a, b =>
    let i := (flm a b).1
    let j := (flm a b).2.1
    let k := runLen (a.drop i) (b.drop j)
    if k = 0 then 0
    else k + msAux fuel (a.take i) (b.take j) + msAux fuel (a.drop (i + k)) (b.drop (j + k))

/-- Total matched size `M` used by `SequenceMatcher.ratio()`. -/
def matchingSize (a b : List Char) : Nat :=
  msAux (a.length + 1) a b

/-- The value of `SequenceMatcher(None, a, b).ratio()`: `2*M/T` over the
combined length (difflib returns `1.0` when both strings are empty). -/
def ratioVal (a b : List Char) : ℚ :=
  if a.length + b.length = 0 then 1
  else (2 * (matchingSize a b : ℚ)) / ((a.length : ℚ) + (b.length : ℚ))

/-- Core of `fuzzy_equal` after normalization (bot.py lines 126-129): vacuous
inputs grade `(False, 0.0)`, otherwise the verdict is `ratio >= 0.85`
(`0.85` is `17/20`; the IEEE doubles compared in Python are the correctly
rounded images of these rationals, so the comparison agrees) together with
the raw ratio. -/
def fuzzyCore (x y : String) : Bool × ℚ :=
  if x = "" ∨ y = "" then (false, 0)
  else (decide ((17 : ℚ) / 20 ≤ ratioVal x.data y.data), ratioVal x.data y.data)

/-- The `fuzzy_equal` grader of bot.py (lines 121-129): normalize both
strings with the normalizer selected by `lang`, then grade. -/
def fuzzy_equal (a b lang : String) : Bool × ℚ :=
  if lang = "ar" then fuzzyCore (normalize_ar a) (normalize_ar b)
  else fuzzyCore (normalize_en a) (normalize_en b)

/-- The displayed percentage `int(score * 100)` from `handle_answer`
(bot.py line 314); Python `int()` truncates, which is `⌊·⌋` for the
nonnegative scores produced here. -/
def simOf (r : ℚ) : ℤ :=
  ⌊r * 100⌋

/-- A vocabulary item of the dataset: the `{"en": ..., "ar": ..., "examples": [...]}`
records of `data.json` / `FALLBACK_DATA`. -/
structure Item where
  en : String
  ar : String
  examples : List String
deriving DecidableEq

/-- A loaded dataset: the level-name-to-item-list mapping, as an association
list with the dict key-membership and `get` semantics used by bot.py. -/
abbrev Dataset := List (String × List Item)

/-- The built-in `FALLBACK_DATA` of bot.py (lines 57-82). -/
def FALLBACK_DATA : Dataset :=
  [("beginner",
    [⟨"data", "بيانات", ["We collect data to analyze trends."]⟩,
     ⟨"report", "تقرير", ["Please share yesterday’s sales report."]⟩,
     ⟨"chart", "مخطط", ["This chart shows monthly revenue."]⟩]),
   ("intermediate",
    [⟨"insight", "رؤية/نتيجة تحليل", ["Turn raw data into actionable insights."]⟩,
     ⟨"trend", "اتجاه/ميل", ["We observed a positive trend in Q4."]⟩,
     ⟨"dashboard", "لوحة معلومات", ["The dashboard helps track KPIs daily."]⟩]),
   ("advanced",
    [⟨"standard deviation", "الانحراف المعياري", ["We used standard deviation to measure variability."]⟩,
     ⟨"hypothesis testing", "اختبار الفرضيات", ["Hypothesis testing validates our assumptions."]⟩,
     ⟨"time series", "سلاسل زمنية", ["Time series models forecast monthly demand."]⟩])]

/-- The sanity check of `load_data` (bot.py line 90): all three level keys
are present.  This is the only validation the function performs. -/
def hasAllLevels (d : Dataset) : Bool :=
  (d.lookup "beginner").isSome && (d.lookup "intermediate").isSome &&
    (d.lookup "advanced").isSome

/-- The `load_data` of bot.py (lines 84-95).  `none` stands for the cases in
which no parsed dictionary is available (missing `data.json`, or `json.load`
raising); `some d` is a successfully parsed level table. -/
def load_data (file : Option Dataset) : Dataset :=
  match file with
  | none => FALLBACK_DATA
  | some d => if hasAllLevels d then d else FALLBACK_DATA

/-- The `pick_item` of bot.py (lines 138-143): `DATA.get(level, [])`, the
empty dict (modelled `none`) for an absent or empty level, and otherwise
`items[idx % len(items)]`; the list access is `List.getElem?`, so that a
hypothetical `IndexError` would surface as `none` — `pick_item_total` (C10)
shows the access always hits. -/
def pick_item (data : Dataset) (level : String) (idx : Nat) : Option Item :=
  let items := (data.lookup level).getD []
  if items.isEmpty then none
  else items[idx % items.length]?

/-- A per-user session record (the `SESS[uid]` dict, bot.py lines 155-161). -/
structure Session where
  level : String
  mode : String
  index : Nat
  current : Option Item
deriving DecidableEq

/-- The `default_session` of bot.py. -/
def default_session : Session :=
  { level := "beginner", mode := "en2ar", index := 0, current := none }

/-- The aiogram FSM state of a user: `Idle` (no state set) or
`Train.waiting_answer`. -/
inductive FsmState where
  | idle
  | waiting_answer
deriving DecidableEq

/-- Outgoing messages, abstracted to the payload pieces the claims are about;
each constructor corresponds to one `m.answer` / `m.answer_audio` call site
in bot.py. -/
inductive Reply where
  /-- "ابدأ أولًا بـ /train" (no current item). -/
  | startFirst
  /-- "البيانات غير متاحة لهذا المستوى." (empty level in `cmd_train`). -/
  | unavailable
  /-- The training prompt of `cmd_train` (level, mode, shown text). -/
  | prompt (level mode shown : String)
  /-- The "✅ صحيح!" text of `handle_answer`, with the example sentences. -/
  | correct (examples : List String)
  /-- The `answer_audio` call of the correct branch of `handle_answer`. -/
  | correctAudio (caption : String)
  /-- The "❌ مو دقيق (sim%)" reply with the correct answer. -/
  | wrong (sim : ℤ) (correctText : String)
  /-- The `answer_audio` call of `cmd_voice`. -/
  | voiceAudio (lang caption : String)
deriving DecidableEq

/-- Does a reply carry audio (an `answer_audio` call) rather than text? -/
def Reply.isAudio : Reply → Bool
  | .correctAudio _ => true
  | .voiceAudio _ _ => true
  | _ => false

/-- Result of one handler invocation: the stored session, the FSM state and
the replies sent, in order. -/
structure StepResult where
  sess : Session
  fsm : FsmState
  replies : List Reply
deriving DecidableEq

/-- The session-store effect of `cmd_start` (bot.py lines 176-179) on the
`SESS` dict, modelled as a cons-shadowing association list keyed by user id:
`SESS[uid] = SESS.get(uid, default_session())` followed by `state.clear()`. -/
def cmd_start_store (m : List (Nat × Session)) (uid : Nat) :
    List (Nat × Session) × FsmState :=
  ((uid, ((m.lookup uid).getD default_session)) :: m, .idle)

/-- The `cmd_train` handler (bot.py lines 224-240) for a user whose session
is `s`: pick the item at the cursor; an empty level answers "unavailable"
and returns (leaving session and FSM state untouched); otherwise the item
becomes `current`, the prompt is sent and the state becomes
`waiting_answer`. -/
def cmd_train (data : Dataset) (s : Session) (fsm : FsmState) : StepResult :=
  match pick_item data s.level s.index with
  | none => ⟨s, fsm, [.unavailable]⟩
  | some item =>
    ⟨{ s with current := some item }, .waiting_answer,
      [.prompt s.level s.mode (if s.mode = "en2ar" then item.en else item.ar)]⟩

/-- The `cmd_voice` handler (bot.py lines 266-277).  `tts` reports whether
speech synthesis of a text succeeds; the `tts_bytes` call has no exception
handling, so a synthesis failure propagates out of the handler
(`Except.error`) and no reply is sent. -/
def cmd_voice (tts : String → Bool) (s : Session) : Except Unit (List Reply) :=
  match s.current with
  | none => .ok [.startFirst]
  | some item =>
    if tts (if s.mode = "en2ar" then item.en else item.ar) then
      .ok [.voiceAudio (if s.mode = "en2ar" then "en" else "ar")
        (if s.mode = "en2ar" then item.en else item.ar)]
    else .error ()

/-- The `handle_answer` handler (bot.py lines 283-319).  On a correct
verdict: best-effort audio (the `with suppress(Exception)` block — a failed
synthesis only drops the audio message), the correct-reply text with up to
two examples, `index += 1`, then chaining into `cmd_train`.  On an incorrect
verdict: the "not accurate" reply with `int(score*100)`, and nothing else
changes. -/
def handle_answer (data : Dataset) (tts : String → Bool) (s : Session)
    (fsm : FsmState) (text : String) : StepResult :=
  match s.current with
  | none => ⟨s, fsm, [.startFirst]⟩
  | some item =>
    if (fuzzy_equal ⟨pyStrip text.data⟩ (if s.mode = "en2ar" then item.ar else item.en)
        (if s.mode = "en2ar" then "ar" else "en")).1 then
      ⟨(cmd_train data { s with index := s.index + 1 } fsm).sess,
        (cmd_train data { s with index := s.index + 1 } fsm).fsm,
        (if tts item.en then [Reply.correctAudio item.en] else []) ++
          [Reply.correct (item.examples.take 2)] ++
          (cmd_train data { s with index := s.index + 1 } fsm).replies⟩
    else
      ⟨s, fsm,
        [.wrong (simOf (fuzzy_equal ⟨pyStrip text.data⟩
            (if s.mode = "en2ar" then item.ar else item.en)
            (if s.mode = "en2ar" then "ar" else "en")).2)
          (if s.mode = "en2ar" then item.ar else item.en)]⟩

/-- An attempt record as specified in §3 of the design. -/
structure Attempt where
  userId : Nat
  timestamp : Nat
  expectedText : String
  givenText : String
  score : ℚ
deriving DecidableEq

/-- Round to one decimal place, `round(q, 1)`.  (Python's `round` breaks
exact decimal midpoints half-to-even; the two agree everywhere else, and no
property below depends on a midpoint.) -/
def round1 (q : ℚ) : ℚ :=
  ((round (q * 10) : ℤ) : ℚ) / 10

/-- Modelled from the spec: the History Log component (§4.5 `append`, §4.4
"the Attempt is still logged") is not part of `src/bot.py` — the
`handle_answer` present there sends replies but never records an Attempt.
This wraps the embedded `handle_answer` with the spec's logging policy: for
every graded response (a free-text reply arriving while a current item
exists), one Attempt with the spec's display score `round(ratio*100, 1)` is
appended to the log, whatever the verdict; when no grading happens (no
current item) the log is untouched. -/
def handle_answer_logged (data : Dataset) (tts : String → Bool)
    (uid ts : Nat) (s : Session) (fsm : FsmState) (text : String)
    (log : List Attempt) : StepResult × List Attempt :=
  match s.current with
  | none => (handle_answer data tts s fsm text, log)
  | some item =>
    (handle_answer data tts s fsm text,
      log ++ [⟨uid, ts, if s.mode = "en2ar" then item.ar else item.en, ⟨pyStrip text.data⟩,
        round1 ((fuzzy_equal ⟨pyStrip text.data⟩
          (if s.mode = "en2ar" then item.ar else item.en)
          (if s.mode = "en2ar" then "ar" else "en")).2 * 100)⟩])

/-- The text replies of a handler result (everything except `answer_audio`). -/
def textReplies (r : StepResult) : List Reply :=
  r.replies.filter (fun x => !x.isAudio)

/-- No two adjacent plain spaces (the shape left by `re.sub(r"\s+", " ", ·)`). -/
def spOK (a b : Char) : Prop :=
  ¬(a = ' ' ∧ b = ' ')

/-- Characters that can appear in a `normalize_en` result: space, `a`-`z`,
`0`-`9`, `-`. -/
def enGood (c : Char) : Prop :=
  c.toNat = 32 ∨ (97 ≤ c.toNat ∧ c.toNat ≤ 122) ∨ (48 ≤ c.toNat ∧ c.toNat ≤ 57) ∨
    c.toNat = 45

/-- Characters that can appear in a `normalize_ar` result: space, digits, and
Arabic-block characters other than the five letter variants rewritten by the
normalizer (`آ أ إ ى ة`). -/
def arGood (c : Char) : Prop :=
  c.toNat = 32 ∨ (48 ≤ c.toNat ∧ c.toNat ≤ 57) ∨
    (0x600 ≤ c.toNat ∧ c.toNat ≤ 0x6FF ∧ c.toNat ≠ 0x622 ∧ c.toNat ≠ 0x623 ∧
      c.toNat ≠ 0x625 ∧ c.toNat ≠ 0x649 ∧ c.toNat ≠ 0x629)

/-- A parsed dataset carrying all three level keys but only empty item lists
(used to probe `load_data`'s validation). -/
def emptyLevels : Dataset :=
  [("beginner", []), ("intermediate", []), ("advanced", [])]

/-- Evaluation helper: `ratioVal` on concrete data, with the `ℚ` arithmetic
left to the caller. -/
theorem ratioVal_eq (a b : List Char) (la lb m : Nat) (hla : a.length = la)
    (hlb : b.length = lb) (hm : matchingSize a b = m) (h0 : la + lb ≠ 0) :
    ratioVal a b = (2 * (m : ℚ)) / ((la : ℚ) + (lb : ℚ)) := by
  unfold ratioVal
  rw [hla, hlb, hm, if_neg h0]

/-- Evaluation helper: the grader core on non-vacuous inputs. -/
theorem fuzzyCore_eq (x y : String) (h1 : x ≠ "") (h2 : y ≠ "") :
    fuzzyCore x y =
      (decide ((17 : ℚ) / 20 ≤ ratioVal x.data y.data), ratioVal x.data y.data) := by
  unfold fuzzyCore
  rw [if_neg]
  simp [h1, h2]

/-- Evaluation helper: `fuzzy_equal` in English mode. -/
theorem fuzzy_equal_en_eq (a b : String) :
    fuzzy_equal a b "en" = fuzzyCore (normalize_en a) (normalize_en b) := by
  unfold fuzzy_equal
  rw [if_neg]
  simp

/-- Evaluation helper: `fuzzy_equal` in Arabic mode. -/
theorem fuzzy_equal_ar_eq (a b : String) :
    fuzzy_equal a b "ar" = fuzzyCore (normalize_ar a) (normalize_ar b) := by
  unfold fuzzy_equal
  rw [if_pos rfl]

/-- The head of a `dropWhile` result fails the predicate. -/
theorem head?_dropWhile_false (p : Char → Bool) (l : List Char) {c : Char}
    (h : (l.dropWhile p).head? = some c) : p c = false := by
  induction l with
  | nil => simp at h
  | cons a t ih =>
    by_cases hp : p a
    · rw [List.dropWhile_cons_of_pos hp] at h
      exact ih h
    · rw [List.dropWhile_cons_of_neg hp] at h
      simp only [List.head?_cons, Option.some.injEq] at h
      subst h
      exact Bool.eq_false_iff.mpr hp

/-- A list whose head fails `p` is untouched by `dropWhile`. -/
theorem dropWhile_eq_self_of_head (p : Char → Bool) (l : List Char)
    (h : ∀ c, l.head? = some c → p c = false) : l.dropWhile p = l := by
  cases l with
  | nil => rfl
  | cons a t =>
    have ha := h a rfl
    rw [List.dropWhile_cons_of_neg (by simp [ha])]

/-- `dropWhile` is idempotent. -/
theorem dropWhile_dropWhile (p : Char → Bool) (l : List Char) :
    (l.dropWhile p).dropWhile p = l.dropWhile p := by
  apply dropWhile_eq_self_of_head
  intro c hc
  exact head?_dropWhile_false p l hc

/-- A nonempty `dropWhile` result keeps the last element of the list. -/
theorem getLast?_dropWhile (p : Char → Bool) (l : List Char)
    (h : l.dropWhile p ≠ []) : (l.dropWhile p).getLast? = l.getLast? := by
  induction l with
  | nil => simp at h
  | cons a t ih =>
    by_cases hp : p a
    · rw [List.dropWhile_cons_of_pos hp] at h ⊢
      rw [ih h]
      cases t with
      | nil => simp at h
      | cons b u => rw [List.getLast?_cons_cons]
    · rw [List.dropWhile_cons_of_neg hp]

/-- `pyStrip` is idempotent. -/
theorem pyStrip_idem (l : List Char) : pyStrip (pyStrip l) = pyStrip l := by
  unfold pyStrip
  by_cases hz : (l.dropWhile isPySpace).reverse.dropWhile isPySpace = []
  · rw [hz]
    simp
  · have hyrev : (l.dropWhile isPySpace).reverse ≠ [] := by
      intro he
      rw [he] at hz
      simp at hz
    have hy : l.dropWhile isPySpace ≠ [] := by
      intro he
      rw [he] at hyrev
      simp at hyrev
    have hhead :
        ((l.dropWhile isPySpace).reverse.dropWhile isPySpace).reverse.head? =
          (l.dropWhile isPySpace).head? := by
      rw [List.head?_reverse, getLast?_dropWhile _ _ hz, List.getLast?_reverse]
    have hstep1 :
        ((l.dropWhile isPySpace).reverse.dropWhile isPySpace).reverse.dropWhile isPySpace =
          ((l.dropWhile isPySpace).reverse.dropWhile isPySpace).reverse := by
      apply dropWhile_eq_self_of_head
      intro c hc
      rw [hhead] at hc
      exact head?_dropWhile_false _ _ hc
    rw [hstep1, List.reverse_reverse, dropWhile_dropWhile]

/-- Unfolding `dedupCons` when both characters are spaces. -/
theorem dedupCons_sp {a d : Char} (t : List Char) (h : a = ' ' ∧ d = ' ') :
    dedupCons a (d :: t) = d :: t := by
  simp only [dedupCons]
  rw [if_pos (by simp [h.1, h.2])]

/-- Unfolding `dedupCons` otherwise. -/
theorem dedupCons_ns {a d : Char} (t : List Char) (h : ¬(a = ' ' ∧ d = ' ')) :
    dedupCons a (d :: t) = a :: d :: t := by
  simp only [dedupCons]
  rw [if_neg]
  simp only [Bool.and_eq_true, decide_eq_true_eq]
  exact h

/-- Elements of `dedupSpace l` come from `l`. -/
theorem mem_dedupSpace {c : Char} {l : List Char} (h : c ∈ dedupSpace l) : c ∈ l := by
  induction l with
  | nil => simp [dedupSpace] at h
  | cons a t ih =>
    rw [dedupSpace] at h
    rcases he : dedupSpace t with _ | ⟨d, u⟩
    · rw [he] at h
      simp only [dedupCons, List.mem_singleton] at h
      simp [h]
    · rw [he] at h
      by_cases hsp : a = ' ' ∧ d = ' '
      · rw [dedupCons_sp _ hsp] at h
        exact List.mem_cons_of_mem _ (ih (he ▸ h))
      · rw [dedupCons_ns _ hsp] at h
        rcases List.mem_cons.mp h with h1 | h1
        · simp [h1]
        · exact List.mem_cons_of_mem _ (ih (he ▸ h1))

/-- Elements of `pyStrip l` come from `l`. -/
theorem mem_pyStrip {c : Char} {l : List Char} (h : c ∈ pyStrip l) : c ∈ l := by
  unfold pyStrip at h
  rw [List.mem_reverse] at h
  have h1 := (List.dropWhile_sublist isPySpace).mem h
  rw [List.mem_reverse] at h1
  exact (List.dropWhile_sublist isPySpace).mem h1

/-- `dedupSpace` leaves no two adjacent spaces. -/
theorem chain'_dedupSpace (l : List Char) : List.Chain' spOK (dedupSpace l) := by
  induction l with
  | nil => simp [dedupSpace]
  | cons a t ih =>
    rw [dedupSpace]
    rcases he : dedupSpace t with _ | ⟨d, u⟩
    · simp [dedupCons]
    · rw [he] at ih
      by_cases hsp : a = ' ' ∧ d = ' '
      · rw [dedupCons_sp _ hsp]
        exact ih
      · rw [dedupCons_ns _ hsp]
        exact List.Chain'.cons hsp ih

/-- A list with no two adjacent spaces is untouched by `dedupSpace`. -/
theorem dedupSpace_eq_self (l : List Char) (h : List.Chain' spOK l) :
    dedupSpace l = l := by
  induction l with
  | nil => rfl
  | cons a t ih =>
    rw [dedupSpace, ih h.tail]
    cases t with
    | nil => rfl
    | cons d u =>
      exact dedupCons_ns _ (List.chain'_cons.mp h).1

/-- `pyStrip` preserves the no-adjacent-spaces invariant. -/
theorem chain'_pyStrip (l : List Char) (h : List.Chain' spOK l) :
    List.Chain' spOK (pyStrip l) := by
  unfold pyStrip
  rw [List.chain'_reverse]
  apply List.Chain'.suffix _ (List.dropWhile_suffix isPySpace)
  rw [List.chain'_reverse]
  apply List.Chain'.imp _ (List.Chain'.suffix h (List.dropWhile_suffix isPySpace))
  intro a b hab
  unfold flip spOK at hab ⊢
  tauto

/-- A map that fixes every element of a list fixes the list. -/
theorem map_fix {f : Char → Char} {l : List Char} (h : ∀ c ∈ l, f c = c) :
    l.map f = l := by
  induction l with
  | nil => rfl
  | cons a t ih =>
    rw [List.map_cons, h a (List.mem_cons_self a t),
      ih (fun c hc => h c (List.mem_cons_of_mem _ hc))]

/-- A character with code 32 is the space character. -/
theorem eq_space_of_toNat {c : Char} (h : c.toNat = 32) : c = ' ' := by
  have h2 := Char.ofNat_toNat c
  rw [h] at h2
  exact h2.symm

/-- `Char.toLower` fixes characters outside `A`-`Z`. -/
theorem toLower_fix {c : Char} (h : ¬(c.toNat ≥ 65 ∧ c.toNat ≤ 90)) :
    c.toLower = c := by
  unfold Char.toLower
  exact if_neg h

/-- A character equals the character its code denotes. -/
theorem char_eq_of_toNat {c : Char} (n : Nat) (d : Char) (h : c.toNat = n)
    (hd : Char.ofNat n = d) : c = d := by
  rw [← Char.ofNat_toNat c, h, hd]

/-- Characters surviving `normalize_en` lie in the canonical alphabet. -/
theorem normEnL_good (l : List Char) : ∀ c ∈ normEnL l, enGood c := by
  intro c hc
  unfold normEnL collapseWS at hc
  have h1 := mem_dedupSpace (mem_pyStrip hc)
  rw [List.mem_map] at h1
  obtain ⟨x, hx, hcx⟩ := h1
  unfold toSpaceUnless at hx
  rw [List.mem_map] at hx
  obtain ⟨d, hd, hxd⟩ := hx
  subst hcx hxd
  by_cases hk : keepEn d
  · dsimp only
    rw [if_pos hk]
    by_cases hs : isPySpace d
    · rw [if_pos hs]
      unfold enGood
      decide
    · rw [if_neg hs]
      simp only [keepEn, isPySpace, Bool.or_eq_true, Bool.and_eq_true,
        decide_eq_true_eq] at hk
      simp only [isPySpace, Bool.or_eq_true, decide_eq_true_eq] at hs
      unfold enGood
      omega
  · dsimp only
    rw [if_neg hk]
    unfold enGood
    decide

/-- `normalize_en` results contain no two adjacent spaces. -/
theorem normEnL_chain (l : List Char) : List.Chain' spOK (normEnL l) := by
  unfold normEnL collapseWS
  exact chain'_pyStrip _ (chain'_dedupSpace _)

/-- `normalize_en` results are already stripped. -/
theorem normEnL_strip_fix (l : List Char) : pyStrip (normEnL l) = normEnL l := by
  unfold normEnL collapseWS
  exact pyStrip_idem _

/-- Canonical English characters are lowercase-stable. -/
theorem enGood_toLower {c : Char} (h : enGood c) : c.toLower = c := by
  apply toLower_fix
  unfold enGood at h
  omega

/-- Canonical English characters are kept by the character class. -/
theorem enGood_keepEn {c : Char} (h : enGood c) : keepEn c = true := by
  unfold enGood at h
  simp only [keepEn, isPySpace, Bool.or_eq_true, Bool.and_eq_true, decide_eq_true_eq]
  omega

/-- Canonical characters are fixed by the whitespace-to-space map. -/
theorem enGood_wsFix {c : Char} (h : enGood c) :
    (if isPySpace c then ' ' else c) = c := by
  by_cases hs : isPySpace c
  · rw [if_pos hs]
    refine (char_eq_of_toNat 32 ' ' ?_ (by decide)).symm
    simp only [isPySpace, Bool.or_eq_true, decide_eq_true_eq] at hs
    unfold enGood at h
    omega
  · rw [if_neg hs]

/-- `normalize_en` (list level) is idempotent. -/
theorem normEnL_idem (l : List Char) : normEnL (normEnL l) = normEnL l := by
  have hg := normEnL_good l
  have hchain := normEnL_chain l
  have hstrip := normEnL_strip_fix l
  have htl : (normEnL l).map Char.toLower = normEnL l :=
    map_fix (fun c hc => enGood_toLower (hg c hc))
  have hts : toSpaceUnless keepEn (normEnL l) = normEnL l :=
    map_fix (fun c hc => by rw [if_pos (enGood_keepEn (hg c hc))])
  have hcw : collapseWS (normEnL l) = normEnL l := by
    unfold collapseWS
    rw [map_fix (fun c hc => enGood_wsFix (hg c hc)), dedupSpace_eq_self _ hchain]
  conv_lhs => rw [normEnL]
  rw [hstrip, htl, hts, hcw, hstrip]

/-- Characters surviving `normalize_ar` lie in the canonical alphabet. -/
theorem normArL_good (l : List Char) : ∀ c ∈ normArL l, arGood c := by
  intro c hc
  unfold normArL collapseWS at hc
  have h1 := mem_dedupSpace (mem_pyStrip hc)
  rw [List.mem_map] at h1
  obtain ⟨x3, hx3, hc3⟩ := h1
  rw [List.mem_map] at hx3
  obtain ⟨x2, hx2, hx23⟩ := hx3
  rw [List.mem_map] at hx2
  obtain ⟨x1, hx1, hx12⟩ := hx2
  rw [List.mem_map] at hx1
  obtain ⟨x0, hx0, hx01⟩ := hx1
  unfold toSpaceUnless at hx0
  rw [List.mem_map] at hx0
  obtain ⟨e, he, hex⟩ := hx0
  subst hc3 hx23 hx12 hx01 hex
  by_cases hk : keepAr e
  · rw [if_pos hk]
    unfold mapAlef
    by_cases h1 : (e.toNat = 0x625 || e.toNat = 0x623 || e.toNat = 0x622 ||
        e.toNat = 0x627) = true
    · rw [if_pos h1]
      unfold mapYaa mapTaa arGood
      decide
    · rw [if_neg h1]
      unfold mapYaa
      by_cases h2 : e.toNat = 0x649
      · rw [if_pos h2]
        unfold mapTaa arGood
        decide
      · rw [if_neg h2]
        unfold mapTaa
        by_cases h3 : e.toNat = 0x629
        · rw [if_pos h3]
          unfold arGood
          decide
        · rw [if_neg h3]
          by_cases h4 : isPySpace e
          · rw [if_pos h4]
            unfold arGood
            decide
          · rw [if_neg h4]
            simp only [keepAr, isPySpace, Bool.or_eq_true, Bool.and_eq_true,
              decide_eq_true_eq] at hk
            simp only [Bool.or_eq_true, decide_eq_true_eq] at h1
            simp only [isPySpace, Bool.or_eq_true, decide_eq_true_eq] at h4
            unfold arGood
            omega
  · rw [if_neg hk]
    unfold mapAlef mapYaa mapTaa arGood
    decide

/-- `normalize_ar` results contain no two adjacent spaces. -/
theorem normArL_chain (l : List Char) : List.Chain' spOK (normArL l) := by
  unfold normArL collapseWS
  exact chain'_pyStrip _ (chain'_dedupSpace _)

/-- `normalize_ar` results are already stripped. -/
theorem normArL_strip_fix (l : List Char) : pyStrip (normArL l) = normArL l := by
  unfold normArL collapseWS
  exact pyStrip_idem _

/-- Canonical Arabic characters are lowercase-stable. -/
theorem arGood_toLower {c : Char} (h : arGood c) : c.toLower = c := by
  apply toLower_fix
  unfold arGood at h
  omega

/-- Canonical Arabic characters are kept by the character class. -/
theorem arGood_keepAr {c : Char} (h : arGood c) : keepAr c = true := by
  unfold arGood at h
  simp only [keepAr, isPySpace, Bool.or_eq_true, Bool.and_eq_true, decide_eq_true_eq]
  omega

/-- Canonical Arabic characters are fixed by the alef rewriting. -/
theorem arGood_mapAlef {c : Char} (h : arGood c) : mapAlef c = c := by
  unfold mapAlef
  by_cases h1 : (c.toNat = 0x625 || c.toNat = 0x623 || c.toNat = 0x622 ||
      c.toNat = 0x627) = true
  · rw [if_pos h1]
    simp only [Bool.or_eq_true, decide_eq_true_eq] at h1
    unfold arGood at h
    refine (char_eq_of_toNat 0x627 'ا' ?_ (by decide)).symm
    omega
  · rw [if_neg h1]

/-- Canonical Arabic characters are fixed by the yaa rewriting. -/
theorem arGood_mapYaa {c : Char} (h : arGood c) : mapYaa c = c := by
  unfold mapYaa
  rw [if_neg]
  unfold arGood at h
  omega

/-- Canonical Arabic characters are fixed by the taa rewriting. -/
theorem arGood_mapTaa {c : Char} (h : arGood c) : mapTaa c = c := by
  unfold mapTaa
  rw [if_neg]
  unfold arGood at h
  omega

/-- Canonical Arabic characters are fixed by the whitespace-to-space map. -/
theorem arGood_wsFix {c : Char} (h : arGood c) :
    (if isPySpace c then ' ' else c) = c := by
  by_cases hs : isPySpace c
  · rw [if_pos hs]
    refine (char_eq_of_toNat 32 ' ' ?_ (by decide)).symm
    simp only [isPySpace, Bool.or_eq_true, decide_eq_true_eq] at hs
    unfold arGood at h
    omega
  · rw [if_neg hs]

/-- `normalize_ar` (list level) is idempotent. -/
theorem normArL_idem (l : List Char) : normArL (normArL l) = normArL l := by
  have hg := normArL_good l
  have hchain := normArL_chain l
  have hstrip := normArL_strip_fix l
  have htl : (normArL l).map Char.toLower = normArL l :=
    map_fix (fun c hc => arGood_toLower (hg c hc))
  have hts : toSpaceUnless keepAr (normArL l) = normArL l :=
    map_fix (fun c hc => by rw [if_pos (arGood_keepAr (hg c hc))])
  have hal : (normArL l).map mapAlef = normArL l :=
    map_fix (fun c hc => arGood_mapAlef (hg c hc))
  have hya : (normArL l).map mapYaa = normArL l :=
    map_fix (fun c hc => arGood_mapYaa (hg c hc))
  have hta : (normArL l).map mapTaa = normArL l :=
    map_fix (fun c hc => arGood_mapTaa (hg c hc))
  have hcw : collapseWS (normArL l) = normArL l := by
    unfold collapseWS
    rw [map_fix (fun c hc => arGood_wsFix (hg c hc)), dedupSpace_eq_self _ hchain]
  conv_lhs => rw [normArL]
  rw [hstrip, htl, hts, hal, hya, hta, hcw, hstrip]

/-- A common run is no longer than the first list. -/
theorem runLen_le_left : ∀ a b : List Char, runLen a b ≤ a.length := by
  intro a
  induction a with
  | nil => intro b; cases b <;> simp [runLen]
  | cons x xs ih =>
    intro b
    cases b with
    | nil => simp [runLen]
    | cons y ys =>
      rw [runLen]
      by_cases h : x = y
      · rw [if_pos h]
        have := ih ys
        simp only [List.length_cons]
        omega
      · rw [if_neg h]
        omega

/-- A common run is no longer than the second list. -/
theorem runLen_le_right : ∀ a b : List Char, runLen a b ≤ b.length := by
  intro a
  induction a with
  | nil => intro b; cases b <;> simp [runLen]
  | cons x xs ih =>
    intro b
    cases b with
    | nil => simp [runLen]
    | cons y ys =>
      rw [runLen]
      by_cases h : x = y
      · rw [if_pos h]
        have := ih ys
        simp only [List.length_cons]
        omega
      · rw [if_neg h]
        omega

/-- A nonzero common run forces the first list to be nonempty. -/
theorem lt_length_of_runLen_drop {a b : List Char} {i j : Nat}
    (h : runLen (a.drop i) (b.drop j) ≠ 0) : i < a.length := by
  by_contra hc
  push_neg at hc
  rw [List.drop_eq_nil_iff.mpr hc] at h
  exact h rfl

/-- The total matched size is bounded by both lengths, whatever the fuel. -/
theorem msAux_le (f : Nat) : ∀ a b : List Char,
    msAux f a b ≤ min a.length b.length := by
  induction f with
  | zero => intro a b; simp [msAux]
  | succ g ih =>
    intro a b
    simp only [msAux]
    by_cases hk : runLen (a.drop (flm a b).1) (b.drop (flm a b).2.1) = 0
    · rw [if_pos hk]
      exact Nat.zero_le _
    · rw [if_neg hk]
      have hk1 : runLen (a.drop (flm a b).1) (b.drop (flm a b).2.1) ≤
          a.length - (flm a b).1 := by
        have h := runLen_le_left (a.drop (flm a b).1) (b.drop (flm a b).2.1)
        rw [List.length_drop] at h
        exact h
      have hk2 : runLen (a.drop (flm a b).1) (b.drop (flm a b).2.1) ≤
          b.length - (flm a b).2.1 := by
        have h := runLen_le_right (a.drop (flm a b).1) (b.drop (flm a b).2.1)
        rw [List.length_drop] at h
        exact h
      have h1 := ih (a.take (flm a b).1) (b.take (flm a b).2.1)
      have h2 := ih
        (a.drop ((flm a b).1 + runLen (a.drop (flm a b).1) (b.drop (flm a b).2.1)))
        (b.drop ((flm a b).2.1 + runLen (a.drop (flm a b).1) (b.drop (flm a b).2.1)))
      rw [List.length_take, List.length_take] at h1
      rw [List.length_drop, List.length_drop] at h2
      omega

/-- `matchingSize` is bounded by both lengths. -/
theorem matchingSize_le (a b : List Char) :
    matchingSize a b ≤ min a.length b.length :=
  msAux_le _ a b

/-- The fuel of `msAux` is irrelevant once it exceeds the length of the first
list, so `matchingSize` computes the fuel-free recursive decomposition. -/
theorem msAux_fuel_irrelevant : ∀ n : Nat, ∀ a b : List Char, ∀ f g : Nat,
    a.length ≤ n → a.length < f → a.length < g → msAux f a b = msAux g a b := by
  intro n
  induction n with
  | zero =>
    intro a b f g hn hf hg
    cases f with
    | zero => omega
    | succ f' =>
      cases g with
      | zero => omega
      | succ g' =>
        have ha : a = [] := List.length_eq_zero.mp (by omega)
        subst ha
        simp only [msAux, List.drop_nil]
        rfl
  | succ m ih =>
    intro a b f g hn hf hg
    cases f with
    | zero => omega
    | succ f' =>
      cases g with
      | zero => omega
      | succ g' =>
        simp only [msAux]
        by_cases hk : runLen (a.drop (flm a b).1) (b.drop (flm a b).2.1) = 0
        · rw [if_pos hk, if_pos hk]
        · rw [if_neg hk, if_neg hk]
          have hi := lt_length_of_runLen_drop hk
          have hkpos : 0 < runLen (a.drop (flm a b).1) (b.drop (flm a b).2.1) :=
            Nat.pos_of_ne_zero hk
          have e1 := ih (a.take (flm a b).1) (b.take (flm a b).2.1) f' g'
            (by rw [List.length_take]; omega)
            (by rw [List.length_take]; omega)
            (by rw [List.length_take]; omega)
          have e2 := ih
            (a.drop ((flm a b).1 + runLen (a.drop (flm a b).1) (b.drop (flm a b).2.1)))
            (b.drop ((flm a b).2.1 + runLen (a.drop (flm a b).1) (b.drop (flm a b).2.1)))
            f' g'
            (by rw [List.length_drop]; omega)
            (by rw [List.length_drop]; omega)
            (by rw [List.length_drop]; omega)
          rw [e1, e2]

/-- `ratioVal` always lies in the unit interval. -/
theorem ratioVal_bounds (a b : List Char) :
    0 ≤ ratioVal a b ∧ ratioVal a b ≤ 1 := by
  unfold ratioVal
  by_cases h : a.length + b.length = 0
  · rw [if_pos h]
    norm_num
  · rw [if_neg h]
    have hM := matchingSize_le a b
    have hT : 0 < (a.length : ℚ) + (b.length : ℚ) := by
      have h0 : 0 < a.length + b.length := Nat.pos_of_ne_zero h
      exact_mod_cast h0
    constructor
    · positivity
    · rw [div_le_one hT]
      have h2 : 2 * matchingSize a b ≤ a.length + b.length := by omega
      calc (2 : ℚ) * (matchingSize a b : ℚ)
          = ((2 * matchingSize a b : Nat) : ℚ) := by push_cast; ring
        _ ≤ ((a.length + b.length : Nat) : ℚ) := by exact_mod_cast h2
        _ = (a.length : ℚ) + (b.length : ℚ) := by push_cast; ring

/-- The grading score always lies in the unit interval. -/
theorem fuzzyCore_score_bounds (x y : String) :
    0 ≤ (fuzzyCore x y).2 ∧ (fuzzyCore x y).2 ≤ 1 := by
  unfold fuzzyCore
  by_cases h : x = "" ∨ y = ""
  · rw [if_pos h]
    norm_num
  · rw [if_neg h]
    exact ratioVal_bounds _ _

/-- All-whitespace lists strip to the empty list. -/
theorem pyStrip_eq_nil (l : List Char) (h : ∀ c ∈ l, isPySpace c = true) :
    pyStrip l = [] := by
  have h1 : l.dropWhile isPySpace = [] :=
    List.dropWhile_eq_nil_iff.mpr (fun x hx => h x hx)
  unfold pyStrip
  rw [h1]
  rfl

/-- Whitespace characters are fixed by the three Arabic letter rewritings. -/
theorem maps_fix_ws {c : Char} (h : isPySpace c = true) :
    mapTaa (mapYaa (mapAlef c)) = c := by
  simp only [isPySpace, Bool.or_eq_true, decide_eq_true_eq] at h
  unfold mapAlef
  rw [if_neg (by simp only [Bool.or_eq_true, decide_eq_true_eq]; omega)]
  unfold mapYaa
  rw [if_neg (by omega)]
  unfold mapTaa
  rw [if_neg (by omega)]

/-- Evaluating `Char.ofNat` below the surrogate range. -/
theorem toNat_ofNat_valid {n : Nat} (h : n < 0xd800) : (Char.ofNat n).toNat = n := by
  rw [Char.ofNat, dif_pos (Or.inl h)]
  rfl

/-- `Char.toLower` keeps a character outside the Arabic block and the ASCII
digits outside them. -/
theorem toLower_keeps_non_ar {d : Char}
    (h1 : ¬(0x600 ≤ d.toNat ∧ d.toNat ≤ 0x6FF)) (h2 : ¬(48 ≤ d.toNat ∧ d.toNat ≤ 57)) :
    ¬(0x600 ≤ d.toLower.toNat ∧ d.toLower.toNat ≤ 0x6FF) ∧
      ¬(48 ≤ d.toLower.toNat ∧ d.toLower.toNat ≤ 57) := by
  unfold Char.toLower
  by_cases hc : d.toNat ≥ 65 ∧ d.toNat ≤ 90
  · rw [if_pos hc]
    have hv : (Char.ofNat (d.toNat + 32)).toNat = d.toNat + 32 :=
      toNat_ofNat_valid (by omega)
    rw [hv]
    omega
  · rw [if_neg hc]
    exact ⟨h1, h2⟩

/-!  Claim theorems. -/

/-- C8 (confirmed): both normalization functions are idempotent — for every
input string `s`, including the empty string,
`normalize_en (normalize_en s) = normalize_en s` and
`normalize_ar (normalize_ar s) = normalize_ar s`. -/
theorem normalize_idempotent (s : String) :
    normalize_en (normalize_en s) = normalize_en s ∧
      normalize_ar (normalize_ar s) = normalize_ar s :=
  ⟨congrArg String.mk (normEnL_idem s.data), congrArg String.mk (normArL_idem s.data)⟩

/-- C5 counterexample: the grader's similarity score is not symmetric.  For
`a = "abcd"`, `b = "cdabxcd"` in English mode, `grade(a,b)` scores `8/11`
(difflib matches the block `ab` first, then also `cd` in the remainders)
while `grade(b,a)` scores `4/11` (the tie-break picks the initial `cd` of
its first argument, after which nothing else matches). -/
theorem ratio_asymmetric_example :
    (fuzzy_equal "abcd" "cdabxcd" "en").2 ≠ (fuzzy_equal "cdabxcd" "abcd" "en").2 := by
  rw [fuzzy_equal_en_eq, fuzzy_equal_en_eq,
    show normalize_en "abcd" = "abcd" from by decide,
    show normalize_en "cdabxcd" = "cdabxcd" from by decide,
    fuzzyCore_eq _ _ (by decide) (by decide),
    fuzzyCore_eq _ _ (by decide) (by decide),
    ratioVal_eq _ _ 4 7 4 (by decide) (by decide) (by decide) (by decide),
    ratioVal_eq _ _ 7 4 2 (by decide) (by decide) (by decide) (by decide)]
  dsimp only
  push_cast
  norm_num

/-- C5 amended (the counterexample refutes general symmetry): the score is
symmetric whenever the two normalized strings are equal — then both orders
grade the same normalized pair — though not for arbitrary inputs. -/
theorem ratio_symm_of_normalized_eq (a b lang : String)
    (h : if lang = "ar" then normalize_ar a = normalize_ar b
         else normalize_en a = normalize_en b) :
    (fuzzy_equal a b lang).2 = (fuzzy_equal b a lang).2 := by
  unfold fuzzy_equal
  by_cases hl : lang = "ar"
  · rw [if_pos hl] at h
    rw [if_pos hl, if_pos hl, h]
  · rw [if_neg hl] at h
    rw [if_neg hl, if_neg hl, h]

/-- Witness for the amended C5 statement at a concrete input. -/
theorem ratio_symm_of_normalized_eq_witness :
    (fuzzy_equal "data" "Data!" "en").2 = (fuzzy_equal "Data!" "data" "en").2 :=
  ratio_symm_of_normalized_eq "data" "Data!" "en" (by decide)

/-- C4 counterexample: the numeric score produced by grading is the raw
ratio, not `round(ratio*100, 1)`: on `("data", "dat")` in English mode the
ratio is `6/7` and the grader returns exactly `6/7`, whereas
`round(ratio*100, 1)` is `85.7`. -/
theorem score_not_rounded_percent :
    (fuzzy_equal "data" "dat" "en").2 = 6 / 7 ∧
      round1 ((6 : ℚ) / 7 * 100) = 857 / 10 ∧
      (6 : ℚ) / 7 ≠ 857 / 10 := by
  refine ⟨?_, ?_, by norm_num⟩
  · rw [fuzzy_equal_en_eq,
      show normalize_en "data" = "data" from by decide,
      show normalize_en "dat" = "dat" from by decide,
      fuzzyCore_eq _ _ (by decide) (by decide),
      ratioVal_eq _ _ 4 3 3 (by decide) (by decide) (by decide) (by decide)]
    norm_num
  · unfold round1
    rw [round_eq]
    rw [show ((6 : ℚ) / 7 * 100 * 10) = 6000 / 7 by norm_num]
    rw [show ⌊(6000 : ℚ) / 7 + 1 / 2⌋ = 857 from by rw [Int.floor_eq_iff]; norm_num]
    norm_num

/-- C4 amended (the counterexample refutes the rounding part): the grader
returns the raw similarity ratio, which lies in `[0, 1]`, and the displayed
percentage `int(score*100)` lies in `[0, 100]`. -/
theorem score_ratio_bounds (a b lang : String) :
    0 ≤ (fuzzy_equal a b lang).2 ∧ (fuzzy_equal a b lang).2 ≤ 1 ∧
      0 ≤ simOf (fuzzy_equal a b lang).2 ∧ simOf (fuzzy_equal a b lang).2 ≤ 100 := by
  have hb : 0 ≤ (fuzzy_equal a b lang).2 ∧ (fuzzy_equal a b lang).2 ≤ 1 := by
    unfold fuzzy_equal
    by_cases hl : lang = "ar"
    · rw [if_pos hl]
      exact fuzzyCore_score_bounds _ _
    · rw [if_neg hl]
      exact fuzzyCore_score_bounds _ _
  refine ⟨hb.1, hb.2, ?_, ?_⟩
  · unfold simOf
    exact Int.floor_nonneg.mpr (by nlinarith [hb.1])
  · unfold simOf
    have h1 : (fuzzy_equal a b lang).2 * 100 ≤ ((100 : ℤ) : ℚ) := by
      push_cast
      nlinarith [hb.2]
    calc ⌊(fuzzy_equal a b lang).2 * 100⌋ ≤ ⌊((100 : ℤ) : ℚ)⌋ := Int.floor_le_floor h1
      _ = 100 := Int.floor_intCast 100

/-- C9 (confirmed): a string with no characters in the Arabic block
U+0600-U+06FF and no ASCII digits normalizes (in Arabic) to the empty
string, so grading it against any expected text in Arabic mode yields
`(False, 0.0)`. -/
theorem latin_answer_scores_zero (s : String)
    (h : ∀ c ∈ s.data, ¬(0x600 ≤ c.toNat ∧ c.toNat ≤ 0x6FF) ∧
        ¬(48 ≤ c.toNat ∧ c.toNat ≤ 57)) :
    normalize_ar s = "" ∧ ∀ b : String, fuzzy_equal s b "ar" = (false, 0) := by
  have hmain : ∀ c ∈ ((((toSpaceUnless keepAr ((pyStrip s.data).map Char.toLower)).map
      mapAlef).map mapYaa).map mapTaa), isPySpace c = true := by
    intro c hc
    rw [List.mem_map] at hc
    obtain ⟨x2, hx2, rfl⟩ := hc
    rw [List.mem_map] at hx2
    obtain ⟨x1, hx1, rfl⟩ := hx2
    rw [List.mem_map] at hx1
    obtain ⟨x0, hx0, rfl⟩ := hx1
    unfold toSpaceUnless at hx0
    rw [List.mem_map] at hx0
    obtain ⟨d, hd, rfl⟩ := hx0
    rw [List.mem_map] at hd
    obtain ⟨e, he, rfl⟩ := hd
    have hne := h e (mem_pyStrip he)
    have hlow := toLower_keeps_non_ar hne.1 hne.2
    by_cases hk : keepAr e.toLower
    · have hws : isPySpace e.toLower = true := by
        simp only [keepAr, Bool.or_eq_true, Bool.and_eq_true, decide_eq_true_eq] at hk
        tauto
      rw [if_pos hk, maps_fix_ws hws]
      exact hws
    · rw [if_neg hk]
      decide
  have hnil : normArL s.data = [] := by
    unfold normArL collapseWS
    apply pyStrip_eq_nil
    intro c hc
    have h1 := mem_dedupSpace hc
    rw [List.mem_map] at h1
    obtain ⟨x, hx, rfl⟩ := h1
    by_cases hw : isPySpace x
    · rw [if_pos hw]
      decide
    · exact absurd (hmain x hx) hw
  have hempty : normalize_ar s = "" := congrArg String.mk hnil
  refine ⟨hempty, fun b => ?_⟩
  rw [fuzzy_equal_ar_eq]
  unfold fuzzyCore
  rw [if_pos (Or.inl hempty)]

/-- Witness for C9 at a concrete input. -/
theorem latin_answer_scores_zero_witness :
    normalize_ar "hello" = "" ∧ fuzzy_equal "hello" "بيانات" "ar" = (false, 0) := by
  have h := latin_answer_scores_zero "hello" (by decide)
  exact ⟨h.1, h.2 "بيانات"⟩

/-- C10 (confirmed): `pick_item` is total — for every level name (present in
the dataset or not) and every index it returns without error: the empty
record (`none`) when the level is absent or its item list empty, and
otherwise the in-bounds element `items[idx % len(items)]`. -/
theorem pick_item_total (d : Dataset) (l : String) (i : Nat) :
    ((d.lookup l).getD [] = [] → pick_item d l i = none) ∧
      (∀ items : List Item, d.lookup l = some items → items ≠ [] →
        ∃ it : Item, pick_item d l i = some it ∧
          items[i % items.length]? = some it) := by
  constructor
  · intro h
    simp [pick_item, h]
  · intro items hl hne
    have hlen : 0 < items.length := List.length_pos.mpr hne
    have hin : i % items.length < items.length := Nat.mod_lt _ hlen
    refine ⟨items[i % items.length], ?_, List.getElem?_eq_getElem hin⟩
    simp only [pick_item, hl, Option.getD_some]
    rw [if_neg (by simp [List.isEmpty_iff, hne])]
    exact List.getElem?_eq_getElem hin

/-- Witness for C10 at a concrete input: index 7 on the three-item beginner
level wraps to position 1. -/
theorem pick_item_total_witness :
    pick_item FALLBACK_DATA "beginner" 7 =
      some ⟨"report", "تقرير", ["Please share yesterday’s sales report."]⟩ := by
  obtain ⟨it, h1, h2⟩ := (pick_item_total FALLBACK_DATA "beginner" 7).2
    [⟨"data", "بيانات", ["We collect data to analyze trends."]⟩,
     ⟨"report", "تقرير", ["Please share yesterday’s sales report."]⟩,
     ⟨"chart", "مخطط", ["This chart shows monthly revenue."]⟩]
    (by decide) (by decide)
  rw [h1]
  rw [show ([⟨"data", "بيانات", ["We collect data to analyze trends."]⟩,
      ⟨"report", "تقرير", ["Please share yesterday’s sales report."]⟩,
      ⟨"chart", "مخطط", ["This chart shows monthly revenue."]⟩] :
        List Item)[7 % ([⟨"data", "بيانات", ["We collect data to analyze trends."]⟩,
      ⟨"report", "تقرير", ["Please share yesterday’s sales report."]⟩,
      ⟨"chart", "مخطط", ["This chart shows monthly revenue."]⟩] : List Item).length]? =
      some ⟨"report", "تقرير", ["Please share yesterday’s sales report."]⟩ from by decide]
    at h2
  exact h2.symm

/-- C3 counterexample: `load_data` accepts a parsed dataset whose three
levels are all empty — only key presence is checked, so the claimed
validation of non-emptiness and of the text fields does not happen and the
claim's "only when" condition fails. -/
theorem load_data_accepts_empty_levels :
    load_data (some emptyLevels) = emptyLevels ∧
      emptyLevels.lookup "beginner" = some [] ∧ emptyLevels ≠ FALLBACK_DATA := by
  refine ⟨?_, by decide, by decide⟩
  show (if hasAllLevels emptyLevels = true then emptyLevels else FALLBACK_DATA) =
    emptyLevels
  rw [if_pos (by decide)]

/-- C3 amended (the counterexample refutes the stronger validation): the
loaded dataset is returned exactly when all three level keys are present —
no emptiness or per-item field validation — and the fallback is returned on
a missing/unparsable file or missing keys. -/
theorem load_data_key_check_only :
    load_data none = FALLBACK_DATA ∧
      (∀ d : Dataset, hasAllLevels d = true → load_data (some d) = d) ∧
      (∀ d : Dataset, hasAllLevels d = false → load_data (some d) = FALLBACK_DATA) := by
  refine ⟨rfl, fun d h => ?_, fun d h => ?_⟩
  · show (if hasAllLevels d = true then d else FALLBACK_DATA) = d
    rw [if_pos h]
  · show (if hasAllLevels d = true then d else FALLBACK_DATA) = FALLBACK_DATA
    rw [if_neg (by simp [h])]

/-- Witness for the amended C3 statement at concrete inputs. -/
theorem load_data_key_check_only_witness :
    load_data (some FALLBACK_DATA) = FALLBACK_DATA ∧
      load_data (some []) = FALLBACK_DATA :=
  ⟨load_data_key_check_only.2.1 FALLBACK_DATA (by decide),
    load_data_key_check_only.2.2 [] (by decide)⟩

/-- C2 counterexample: for a user who already has a session, the start
command stores the existing session back unchanged (`SESS.get(uid, default)`
returns the existing value), so the session is not re-initialized to the
defaults as claimed. -/
theorem cmd_start_keeps_existing_session :
    (cmd_start_store [(7, ⟨"advanced", "ar2en", 5, none⟩)] 7).1.lookup 7 =
        some ⟨"advanced", "ar2en", 5, none⟩ ∧
      (⟨"advanced", "ar2en", 5, none⟩ : Session) ≠ default_session := by
  decide

/-- C2 amended (the counterexample refutes re-initialization): start creates
the default session only when the user has none (lazy initialization), an
existing session is stored back unchanged, other users are unaffected, and
the `AwaitingAnswer` state is cleared in every case. -/
theorem cmd_start_lazy_init (m : List (Nat × Session)) (uid : Nat) :
    (m.lookup uid = none →
        (cmd_start_store m uid).1.lookup uid = some default_session) ∧
      (∀ s : Session, m.lookup uid = some s →
        (cmd_start_store m uid).1.lookup uid = some s) ∧
      (∀ u : Nat, u ≠ uid → (cmd_start_store m uid).1.lookup u = m.lookup u) ∧
      (cmd_start_store m uid).2 = .idle := by
  refine ⟨fun h => ?_, fun s h => ?_, fun u hu => ?_, rfl⟩
  · simp [cmd_start_store, List.lookup, h]
  · simp [cmd_start_store, List.lookup, h]
  · have hb : (u == uid) = false := by simp [hu]
    simp [cmd_start_store, List.lookup, hb]

/-- Witness for the amended C2 statement at concrete inputs. -/
theorem cmd_start_lazy_init_witness :
    (cmd_start_store [] 3).1.lookup 3 = some default_session ∧
      (cmd_start_store [(3, ⟨"advanced", "en2ar", 2, none⟩)] 3).1.lookup 3 =
        some ⟨"advanced", "en2ar", 2, none⟩ :=
  ⟨(cmd_start_lazy_init [] 3).1 rfl,
    (cmd_start_lazy_init [(3, ⟨"advanced", "en2ar", 2, none⟩)] 3).2.1 _ rfl⟩

/-- C6 counterexample: the voice command path does not suppress synthesis
failure — `tts_bytes` is called with no exception handling, so the handler
aborts (`Except.error`) and no reply of any kind is sent, contradicting
"suppressed on every code path". -/
theorem voice_path_propagates_synthesis_failure :
    cmd_voice (fun _ => false)
        ⟨"beginner", "en2ar", 0,
          some ⟨"data", "بيانات", ["We collect data to analyze trends."]⟩⟩ =
      .error () := rfl

/-- C6 amended (the counterexample refutes the voice path): in the grading
handler the synthesis outcome is suppressed — session, FSM state and the
text replies are independent of it, and a text reply is always produced even
when synthesis always fails — while the voice command does not suppress it. -/
theorem answer_path_degrades_to_text (data : Dataset) (t t' : String → Bool)
    (s : Session) (fsm : FsmState) (text : String) :
    (handle_answer data t s fsm text).sess = (handle_answer data t' s fsm text).sess ∧
      (handle_answer data t s fsm text).fsm = (handle_answer data t' s fsm text).fsm ∧
      textReplies (handle_answer data t s fsm text) =
        textReplies (handle_answer data t' s fsm text) ∧
      textReplies (handle_answer data (fun _ => false) s fsm text) ≠ [] := by
  unfold handle_answer
  cases hc : s.current with
  | none => exact ⟨rfl, rfl, rfl, by simp [textReplies, Reply.isAudio]⟩
  | some item =>
    by_cases hg : (fuzzy_equal ⟨pyStrip text.data⟩
        (if s.mode = "en2ar" then item.ar else item.en)
        (if s.mode = "en2ar" then "ar" else "en")).1
    · simp only [if_pos hg]
      refine ⟨by trivial, by trivial, ?_, ?_⟩
      · cases ht : t item.en <;> cases ht' : t' item.en <;>
          simp [textReplies, List.filter_append, Reply.isAudio]
      · simp [textReplies, List.filter_append, Reply.isAudio]
    · simp only [if_neg hg]
      refine ⟨by trivial, by trivial, by trivial, ?_⟩
      simp [textReplies, Reply.isAudio]

/-- C7 (confirmed): for a graded free-text answer (a current item exists and
the user is awaiting-answer): a correct verdict advances the cursor by
exactly one, and an incorrect verdict leaves the whole session — cursor and
current item — unchanged and the state in `AwaitingAnswer`. -/
theorem cursor_advance_iff_correct (data : Dataset) (tts : String → Bool)
    (s : Session) (text : String) (item : Item) (hc : s.current = some item) :
    ((fuzzy_equal ⟨pyStrip text.data⟩ (if s.mode = "en2ar" then item.ar else item.en)
        (if s.mode = "en2ar" then "ar" else "en")).1 = true →
      (handle_answer data tts s .waiting_answer text).sess.index = s.index + 1) ∧
      ((fuzzy_equal ⟨pyStrip text.data⟩ (if s.mode = "en2ar" then item.ar else item.en)
          (if s.mode = "en2ar" then "ar" else "en")).1 = false →
        (handle_answer data tts s .waiting_answer text).sess = s ∧
          (handle_answer data tts s .waiting_answer text).fsm = .waiting_answer) := by
  simp only [handle_answer, hc]
  constructor
  · intro hv
    rw [if_pos hv]
    dsimp only
    unfold cmd_train
    dsimp only
    cases pick_item data s.level (s.index + 1) <;> rfl
  · intro hv
    rw [if_neg (by simp [hv])]
    exact ⟨rfl, rfl⟩

/-- Witness for C7 at a concrete correct answer. -/
theorem cursor_advance_iff_correct_witness :
    (handle_answer FALLBACK_DATA (fun _ => true)
        ⟨"beginner", "en2ar", 0,
          some ⟨"data", "بيانات", ["We collect data to analyze trends."]⟩⟩
        .waiting_answer "بيانات").sess.index = 0 + 1 := by
  apply (cursor_advance_iff_correct FALLBACK_DATA (fun _ => true)
    ⟨"beginner", "en2ar", 0,
      some ⟨"data", "بيانات", ["We collect data to analyze trends."]⟩⟩
    "بيانات" ⟨"data", "بيانات", ["We collect data to analyze trends."]⟩ rfl).1
  rw [show (⟨pyStrip "بيانات".data⟩ : String) = "بيانات" from by decide]
  rw [if_pos rfl, if_pos rfl]
  rw [fuzzy_equal_ar_eq, show normalize_ar "بيانات" = "بيانات" from by decide,
    fuzzyCore_eq _ _ (by decide) (by decide),
    ratioVal_eq _ _ 6 6 6 (by decide) (by decide) (by decide) (by decide)]
  dsimp only
  rw [decide_eq_true_eq]
  push_cast
  norm_num

/-- C1 (spec-modelled history log; confirmed against the model): every
graded free-text response — one arriving while a current item exists,
whatever the verdict turns out to be — appends exactly one Attempt record
`(userId, timestamp, expectedText, givenText, score)` to the log, and the
prior log entries are preserved unchanged (append-only). -/
theorem attempt_logged_every_graded_response (data : Dataset)
    (tts : String → Bool) (uid ts : Nat) (s : Session) (fsm : FsmState)
    (text : String) (log : List Attempt) (item : Item)
    (hc : s.current = some item) :
    (handle_answer_logged data tts uid ts s fsm text log).2 =
      log ++ [⟨uid, ts, if s.mode = "en2ar" then item.ar else item.en,
        ⟨pyStrip text.data⟩,
        round1 ((fuzzy_equal ⟨pyStrip text.data⟩
          (if s.mode = "en2ar" then item.ar else item.en)
          (if s.mode = "en2ar" then "ar" else "en")).2 * 100)⟩] := by
  simp only [handle_answer_logged, hc]

/-- Witness for C1 at a concrete graded (correct) answer: the empty log
becomes a one-attempt log with the full display score. -/
theorem attempt_logged_every_graded_response_witness :
    (handle_answer_logged FALLBACK_DATA (fun _ => true) 1 5
        ⟨"beginner", "en2ar", 0,
          some ⟨"data", "بيانات", ["We collect data to analyze trends."]⟩⟩
        .waiting_answer "بيانات" []).2 =
      [⟨1, 5, "بيانات", "بيانات", 100⟩] := by
  rw [attempt_logged_every_graded_response FALLBACK_DATA (fun _ => true) 1 5
    ⟨"beginner", "en2ar", 0,
      some ⟨"data", "بيانات", ["We collect data to analyze trends."]⟩⟩
    .waiting_answer "بيانات" [] ⟨"data", "بيانات", ["We collect data to analyze trends."]⟩ rfl]
  rw [List.nil_append]
  rw [show (⟨pyStrip "بيانات".data⟩ : String) = "بيانات" from by decide]
  rw [if_pos rfl, if_pos rfl]
  rw [fuzzy_equal_ar_eq, show normalize_ar "بيانات" = "بيانات" from by decide,
    fuzzyCore_eq _ _ (by decide) (by decide),
    ratioVal_eq _ _ 6 6 6 (by decide) (by decide) (by decide) (by decide)]
  dsimp only
  have hsc : (2 * ((6 : Nat) : ℚ)) / (((6 : Nat) : ℚ) + ((6 : Nat) : ℚ)) = 1 := by
    push_cast
    norm_num
  rw [hsc]
  unfold round1
  rw [round_eq]
  rw [show ((1 : ℚ) * 100 * 10 + 1 / 2) = 2001 / 2 by norm_num]
  rw [show ⌊(2001 : ℚ) / 2⌋ = 1000 from by rw [Int.floor_eq_iff]; norm_num]
  norm_num

end EnglishBot

